import Mathlib

/-!
# The browser wrapper of the CHIP-8 emulator (`src/web/index.js`)

The wrapper is a handful of event handlers around a WebAssembly machine
(`chip8 = new wasm.WasmPlatform()`), one mutable flag (`loaded`) and a canvas.
This development embeds the handlers as pure functions on an explicit world
state.  Every call the wrapper makes on the machine, on the 2d context and on
the browser is appended to `World.trace`, in program order, so that statements
about "which calls are made, with which arguments, in which order" are
statements about lists.

JavaScript numbers that occur in the file are loop counters (naturals), the
constants 64, 32, 1000, 1280, 640 and quotients and products of those; they are
modelled as rationals, on which `/` is the exact quotient.

The machine itself is not part of the wrapper: it is a parameter
(`WasmPlatform M`) whose four operations may change the machine state and, for
the three that report errors, may throw.
-/

namespace Chip8Web

/-! ## Values exchanged with the browser and the machine -/

/-- The contents of an `ArrayBuffer`: a sequence of bytes. -/
abbrev ArrayBuffer := List (Fin 256)

/-- A `Uint8Array`: a window of `length` bytes starting at `byteOffset` in a buffer. -/
structure Uint8Array where
  buffer : ArrayBuffer
  byteOffset : Nat
  length : Nat
  deriving DecidableEq

/-- The constructor call `new Uint8Array(buffer)`: a view of the whole buffer. -/
def Uint8Array.ofBuffer (buffer : ArrayBuffer) : Uint8Array :=
  { buffer := buffer, byteOffset := 0, length := buffer.length }

/-- The elements of a typed array, in index order. -/
def Uint8Array.elements (a : Uint8Array) : List (Fin 256) :=
  (a.buffer.drop a.byteOffset).take a.length

/-- The JavaScript values that can reach the first parameter of `keypress`. -/
inductive JsValue where
  | number (n : Int)
  | string (s : String)
  deriving DecidableEq

/-- A file of the `<input type="file">` element. -/
structure File where
  name : String
  contents : ArrayBuffer
  deriving DecidableEq

/-- How a call on the machine ended. -/
inductive Outcome where
  | returned
  | threw
  deriving DecidableEq

/-- The operations of `wasm.WasmPlatform` used by the wrapper.  Each takes the
machine state and gives the state after the call. -/
structure WasmPlatform (M : Type) where
  /-- The constructor call `new wasm.WasmPlatform()`. -/
  create : M
  pixel_at : M → Int → Int → Bool × M
  tick : M → Outcome × M
  load_rom : M → List (Fin 256) → Outcome × M
  keypress : M → JsValue → Bool → Outcome × M

/-! ## The trace of calls -/

/-- One call made by the wrapper, with its arguments (and, where the wrapper
looks at it or depends on it, its result). -/
inductive Call where
  | clearRect (x y w h : ℚ)
  | pixel_at (x y : Int) (result : Bool)
  | setFillStyle (colour : String)
  /-- The call `ctx.fillRect(x, y, w, h)`, with the fill style in force. -/
  | fillRect (x y w h : ℚ) (style : String)
  | requestAnimationFrame
  | setInterval (ms : ℚ)
  | readAsArrayBuffer (file : File)
  | tick (outcome : Outcome)
  | load_rom (bytes : List (Fin 256)) (outcome : Outcome)
  | keypress (key : JsValue) (pressed : Bool) (outcome : Outcome)
  deriving DecidableEq

/-- The module-level state of `index.js` together with what it has done so far. -/
structure World (M : Type) where
  /-- The state of `chip8`. -/
  machine : M
  /-- The variable `let loaded`. -/
  loaded : Bool
  /-- The property `canvas.width`. -/
  canvasWidth : ℚ
  /-- The property `canvas.height`. -/
  canvasHeight : ℚ
  /-- The property `ctx.fillStyle`. -/
  fillStyle : String
  /-- The `FileReader`s with a read in flight: the bytes each will deliver. -/
  readers : List ArrayBuffer
  /-- The calls made so far, oldest first. -/
  trace : List Call

/-- Append a call to the trace. -/
def World.emit {M : Type} (w : World M) (c : Call) : World M :=
  { w with trace := w.trace ++ [c] }

/-! ## Constants of the file -/

def chip8Width : Nat := 64

def chip8Height : Nat := 32

def clocksPerSec : ℚ := 1000

/-! ## Control flow -/

/-- The loop `for (let i = start; i < bound; i++) body`, entered at `i`. -/
def forLoop {σ : Type} (bound : Nat) (body : Nat → σ → σ) (i : Nat) (s : σ) : σ :=
  if i < bound then forLoop bound body (i + 1) (body i s) else s
termination_by bound - i

/-! ## The handlers -/

/-- The conditional expression `pixelOn ? "#ffffff" : "#000000"`. -/
def pixelColor (pixelOn : Bool) : String :=
  if pixelOn then "#ffffff" else "#000000"

/-- The body of the inner loop of `animFrame`, for the cell `(x, y)`. -/
def paintCell {M : Type} (P : WasmPlatform M) (pixelWidth pixelHeight : ℚ)
    (y x : Nat) (w : World M) : World M :=
  let r := P.pixel_at w.machine (x : Int) (y : Int)
  let pixelOn := r.1
  let w := ({ w with machine := r.2 }).emit (Call.pixel_at (x : Int) (y : Int) pixelOn)
  let pixelX := (x : ℚ) * pixelWidth
  let pixelY := (y : ℚ) * pixelHeight
  let w := ({ w with fillStyle := pixelColor pixelOn }).emit (Call.setFillStyle (pixelColor pixelOn))
  w.emit (Call.fillRect pixelX pixelY pixelWidth pixelHeight w.fillStyle)

/-- The frame callback `animFrame`. -/
def animFrame {M : Type} (P : WasmPlatform M) (w : World M) : World M :=
  let w := w.emit (Call.clearRect 0 0 w.canvasWidth w.canvasHeight)
  let pixelWidth := w.canvasWidth / (chip8Width : ℚ)
  let pixelHeight := w.canvasHeight / (chip8Height : ℚ)
  let w :=
    if w.loaded then
      forLoop chip8Height
        (fun y w => forLoop chip8Width (paintCell P pixelWidth pixelHeight y) 0 w) 0 w
    else w
  w.emit Call.requestAnimationFrame

/-- The callback handed to `setInterval` by `onInit`. -/
def clockCallback {M : Type} (P : WasmPlatform M) (w : World M) : World M :=
  if w.loaded then
    let r := P.tick w.machine
    ({ w with machine := r.2 }).emit (Call.tick r.1)
  else w

/-- The function `onInit`. -/
def onInit {M : Type} (w : World M) : World M :=
  let w := { w with canvasWidth := 1280 }
  let w := { w with canvasHeight := 640 }
  let w := w.emit Call.requestAnimationFrame
  w.emit (Call.setInterval (1000 / clocksPerSec))

/-- The function `onReaderLoad`, called with `loadEvent.target.result`.  When
`load_rom` throws, the assignment `loaded = true` is not reached. -/
def onReaderLoad {M : Type} (P : WasmPlatform M) (result : ArrayBuffer) (w : World M) :
    World M :=
  let arr := Uint8Array.ofBuffer result
  let r := P.load_rom w.machine arr.elements
  let w := ({ w with machine := r.2 }).emit (Call.load_rom arr.elements r.1)
  match r.1 with
  | Outcome.returned => { w with loaded := true }
  | Outcome.threw => w

/-- The listener of the `change` event of `romInput`, called with
`ev.target.files`.  With no file in the list, `files[0]` is `undefined` and
`readAsArrayBuffer` throws before any read is started. -/
def onChange {M : Type} (files : List File) (w : World M) : World M :=
  match files.head? with
  | some romFile =>
    ({ w with readers := w.readers ++ [romFile.contents] }).emit (Call.readAsArrayBuffer romFile)
  | none => w

/-- The listener of `keydown`, called with `ev.key`. -/
def onKeydown {M : Type} (P : WasmPlatform M) (key : String) (w : World M) : World M :=
  let r := P.keypress w.machine (JsValue.string key) true
  ({ w with machine := r.2 }).emit (Call.keypress (JsValue.string key) true r.1)

/-- The listener of `keyup`, called with `ev.key`. -/
def onKeyup {M : Type} (P : WasmPlatform M) (key : String) (w : World M) : World M :=
  let r := P.keypress w.machine (JsValue.string key) false
  ({ w with machine := r.2 }).emit (Call.keypress (JsValue.string key) false r.1)

/-! ## The event system -/

/-- What the browser can deliver to the wrapper. -/
inductive Event where
  | animationFrame
  | clockFiring
  | change (files : List File)
  /-- The read of the `i`-th reader in flight has completed. -/
  | readerLoad (i : Nat)
  | keydown (key : String)
  | keyup (key : String)
  deriving DecidableEq

/-- Deliver one event. -/
def step {M : Type} (P : WasmPlatform M) (e : Event) (w : World M) : World M :=
  match e with
  | Event.animationFrame => animFrame P w
  | Event.clockFiring => clockCallback P w
  | Event.change files => onChange files w
  | Event.readerLoad i =>
    match w.readers.get? i with
    | some result => onReaderLoad P result { w with readers := w.readers.eraseIdx i }
    | none => w
  | Event.keydown key => onKeydown P key w
  | Event.keyup key => onKeyup P key w

/-- Deliver a sequence of events, first to last. -/
def run {M : Type} (P : WasmPlatform M) (es : List Event) (w : World M) : World M :=
  es.foldl (fun w e => step P e w) w

/-- The state when the module starts: lines 4 to 11, with the size the page
gives the canvas. -/
def World.start {M : Type} (P : WasmPlatform M) (width height : ℚ) : World M :=
  { machine := P.create, loaded := false, canvasWidth := width, canvasHeight := height,
    fillStyle := "#000000", readers := [], trace := [] }

/-- The state once the module body has run: its last statement is `onInit()`. -/
def boot {M : Type} (P : WasmPlatform M) (width height : ℚ) : World M :=
  onInit (World.start P width height)

/-! ## Reading traces -/

/-- The calls made between two states of one execution. -/
def callsSince {M : Type} (before after : World M) : List Call :=
  after.trace.drop before.trace.length

def Call.isTick : Call → Bool
  | Call.tick _ => true
  | _ => false

def Call.isPixelAt : Call → Bool
  | Call.pixel_at _ _ _ => true
  | _ => false

def Call.isLoadRom : Call → Bool
  | Call.load_rom _ _ => true
  | _ => false

def Call.isKeypress : Call → Bool
  | Call.keypress _ _ _ => true
  | _ => false

/-- The arguments of a display query. -/
def pixelQuery : Call → Option (Int × Int)
  | Call.pixel_at x y _ => some (x, y)
  | _ => none

/-- The display queries of a trace, in order. -/
def pixelQueries (cs : List Call) : List (Int × Int) :=
  cs.filterMap pixelQuery

/-- The cells `(x, y)` of the grid, rows outermost. -/
def rowMajor : List (Nat × Nat) :=
  (List.range chip8Height).flatMap (fun y => (List.range chip8Width).map (fun x => (x, y)))

/-- The three calls of one pass through the inner loop body, given what the
query answered. -/
def cellCalls (pixelWidth pixelHeight : ℚ) (c : Nat × Nat) (pixelOn : Bool) : List Call :=
  [Call.pixel_at (c.1 : Int) (c.2 : Int) pixelOn,
   Call.setFillStyle (if pixelOn then "#ffffff" else "#000000"),
   Call.fillRect ((c.1 : ℚ) * pixelWidth) ((c.2 : ℚ) * pixelHeight) pixelWidth pixelHeight
     (if pixelOn then "#ffffff" else "#000000")]

/-- What the machine answers to the queries of `cells`, asked in order from
the state `m`. -/
def answers {M : Type} (P : WasmPlatform M) : M → List (Nat × Nat) → List Bool
  | _, [] => []
  | m, c :: cs =>
    (P.pixel_at m (c.1 : Int) (c.2 : Int)).1 :: answers P (P.pixel_at m (c.1 : Int) (c.2 : Int)).2 cs

/-- The machine state after the queries of `cells`, asked in order from `m`. -/
def machineAfter {M : Type} (P : WasmPlatform M) : M → List (Nat × Nat) → M
  | m, [] => m
  | m, c :: cs => machineAfter P (P.pixel_at m (c.1 : Int) (c.2 : Int)).2 cs

/-- The calls of a sweep over `cells` whose queries were answered by `bs`. -/
def sweepCalls (pixelWidth pixelHeight : ℚ) (cells : List (Nat × Nat)) (bs : List Bool) :
    List Call :=
  (List.zip cells bs).flatMap (fun cb => cellCalls pixelWidth pixelHeight cb.1 cb.2)

/-- A rectangle of the canvas: origin and size. -/
structure Rect where
  x : ℚ
  y : ℚ
  w : ℚ
  h : ℚ
  deriving DecidableEq

/-- The point `(p, q)` lies in the rectangle (left and top edges included,
right and bottom edges excluded). -/
def Rect.covers (r : Rect) (p q : ℚ) : Prop :=
  r.x ≤ p ∧ p < r.x + r.w ∧ r.y ≤ q ∧ q < r.y + r.h

instance (r : Rect) (p q : ℚ) : Decidable (r.covers p q) := by
  unfold Rect.covers
  infer_instance

/-- The rectangle of a `fillRect` call. -/
def filledRect : Call → Option Rect
  | Call.fillRect x y w h _ => some { x := x, y := y, w := w, h := h }
  | _ => none

/-- The rectangles filled by a trace, in order. -/
def fillRects (cs : List Call) : List Rect :=
  cs.filterMap filledRect

/-- The first argument of a `keypress` call. -/
def keyArg : Call → Option JsValue
  | Call.keypress key _ _ => some key
  | _ => none

/-- The first arguments of the `keypress` calls of a trace, in order. -/
def keyArgs (cs : List Call) : List JsValue :=
  cs.filterMap keyArg

/-- The value is a logical key index: a number from 0 to 15. -/
def isLogicalKeyIndex : JsValue → Bool
  | JsValue.number n => decide (0 ≤ n ∧ n ≤ 15)
  | JsValue.string _ => false

/-- A `load_rom` call that returned. -/
def Call.isLoadReturned : Call → Bool
  | Call.load_rom _ Outcome.returned => true
  | _ => false

/-- The state of the reference machine. -/
structure RefMachine where
  program : List (Fin 256)
  lit : List (Int × Int)
  keys : List (JsValue × Bool)
  cycles : Nat
  deriving DecidableEq

/-- Modelled from the spec: the machine behind `wasm.WasmPlatform`, as far as
section 6 fixes what a caller observes.  `load_rom` rejects a ROM larger than
`0x1000 - 0x200` bytes and leaves the machine as it was, and otherwise resets
the machine and keeps the program; `pixel_at` is a pure query of the
framebuffer; `tick` counts a cycle; `keypress` records the key state. -/
def refPlatform : WasmPlatform RefMachine where
  create := { program := [], lit := [], keys := [], cycles := 0 }
  pixel_at := fun m x y => (decide ((x, y) ∈ m.lit), m)
  tick := fun m => (Outcome.returned, { m with cycles := m.cycles + 1 })
  load_rom := fun m bytes =>
    if bytes.length ≤ 0x1000 - 0x200 then
      (Outcome.returned, { program := bytes, lit := [], keys := [], cycles := 0 })
    else (Outcome.threw, m)
  keypress := fun m key pressed => (Outcome.returned, { m with keys := (key, pressed) :: m.keys })

/-- A two-byte ROM file (the instruction `00E0`). -/
def sampleFile : File :=
  { name := "clear.ch8", contents := [0x00, 0xE0] }

/-- The wrapper after its start, on a canvas of the default size. -/
def freshWorld : World RefMachine :=
  boot refPlatform 300 150

/-- The wrapper after `sampleFile` was selected and read. -/
def loadedWorld : World RefMachine :=
  run refPlatform [Event.change [sampleFile], Event.readerLoad 0] freshWorld

/-- A ROM of 3585 bytes: one more than fits from `0x200` to `0x1000`. -/
def oversizedRom : ArrayBuffer :=
  List.replicate 3585 0

/-- The wrapper after `sampleFile` was selected, its read still in flight. -/
def readingWorld : World RefMachine :=
  step refPlatform (Event.change [sampleFile]) freshWorld

/-! ## Loops as folds -/

theorem forLoop_eq_foldl_range' {σ : Type} (bound : Nat) (body : Nat → σ → σ) :
    ∀ (n i : Nat) (s : σ), i + n = bound →
      forLoop bound body i s = (List.range' i n).foldl (fun s j => body j s) s := by
  intro n
  induction n with
  | zero =>
    intro i s h
    rw [forLoop]
    simp only [Nat.add_zero] at h
    simp [h]
  | succ n ih =>
    intro i s h
    rw [forLoop]
    have hlt : i < bound := by omega
    simp only [hlt, if_true, List.range'_succ, List.foldl_cons]
    exact ih (i + 1) (body i s) (by omega)

theorem forLoop_zero_eq_foldl {σ : Type} (bound : Nat) (body : Nat → σ → σ) (s : σ) :
    forLoop bound body 0 s = (List.range bound).foldl (fun s j => body j s) s := by
  rw [List.range_eq_range']
  exact forLoop_eq_foldl_range' bound body bound 0 s (by omega)

theorem foldl_grid {σ : Type} (f : Nat → Nat → σ → σ) (xs : List Nat) :
    ∀ (ys : List Nat) (s : σ),
      (ys.flatMap (fun y => xs.map (fun x => (x, y)))).foldl (fun s c => f c.2 c.1 s) s
        = ys.foldl (fun s y => xs.foldl (fun s x => f y x s) s) s := by
  intro ys
  induction ys with
  | nil => intro s; rfl
  | cons y ys ih =>
    intro s
    simp only [List.flatMap_cons, List.foldl_append, List.foldl_cons, List.foldl_map]
    exact ih _

/-- The two nested loops of `animFrame` visit the cells in row-major order. -/
theorem loops_eq_foldl_rowMajor {σ : Type} (f : Nat → Nat → σ → σ) (s : σ) :
    forLoop chip8Height (fun y s => forLoop chip8Width (f y) 0 s) 0 s
      = rowMajor.foldl (fun s c => f c.2 c.1 s) s := by
  rw [forLoop_zero_eq_foldl]
  simp only [forLoop_zero_eq_foldl]
  exact (foldl_grid f (List.range chip8Width) (List.range chip8Height) s).symm

/-! ## One sweep of the grid -/

theorem paintCell_trace {M : Type} (P : WasmPlatform M) (pw ph : ℚ) (y x : Nat) (w : World M) :
    (paintCell P pw ph y x w).trace
      = w.trace ++ cellCalls pw ph (x, y) (P.pixel_at w.machine (x : Int) (y : Int)).1 := by
  simp [paintCell, World.emit, cellCalls, pixelColor]

theorem paintCell_machine {M : Type} (P : WasmPlatform M) (pw ph : ℚ) (y x : Nat) (w : World M) :
    (paintCell P pw ph y x w).machine = (P.pixel_at w.machine (x : Int) (y : Int)).2 := rfl

theorem paintCell_loaded {M : Type} (P : WasmPlatform M) (pw ph : ℚ) (y x : Nat) (w : World M) :
    (paintCell P pw ph y x w).loaded = w.loaded := rfl

/-- A sweep over any list of cells: what it appends to the trace and what it
leaves alone. -/
theorem sweep_spec {M : Type} (P : WasmPlatform M) (pw ph : ℚ) :
    ∀ (cells : List (Nat × Nat)) (w : World M),
      (cells.foldl (fun w c => paintCell P pw ph c.2 c.1 w) w).trace
          = w.trace ++ sweepCalls pw ph cells (answers P w.machine cells)
        ∧ (cells.foldl (fun w c => paintCell P pw ph c.2 c.1 w) w).machine
          = machineAfter P w.machine cells
        ∧ (cells.foldl (fun w c => paintCell P pw ph c.2 c.1 w) w).loaded = w.loaded
        ∧ (cells.foldl (fun w c => paintCell P pw ph c.2 c.1 w) w).canvasWidth = w.canvasWidth
        ∧ (cells.foldl (fun w c => paintCell P pw ph c.2 c.1 w) w).canvasHeight = w.canvasHeight
        ∧ (cells.foldl (fun w c => paintCell P pw ph c.2 c.1 w) w).readers = w.readers := by
  intro cells
  induction cells with
  | nil => intro w; simp [sweepCalls, answers, machineAfter]
  | cons c cs ih =>
    intro w
    obtain ⟨h1, h2, h3, h4, h5, h6⟩ := ih (paintCell P pw ph c.2 c.1 w)
    simp only [List.foldl_cons]
    refine ⟨?_, ?_, ?_, ?_, ?_, ?_⟩
    · rw [h1, paintCell_trace, paintCell_machine]
      simp [sweepCalls, answers, List.append_assoc]
    · rw [h2, paintCell_machine]; rfl
    · rw [h3, paintCell_loaded]
    · rw [h4]; rfl
    · rw [h5]; rfl
    · rw [h6]; rfl

/-- The frame callback with its loops written as one fold over the grid. -/
theorem animFrame_eq {M : Type} (P : WasmPlatform M) (w : World M) :
    animFrame P w
      = (if w.loaded then
            rowMajor.foldl
              (fun v c => paintCell P (w.canvasWidth / (chip8Width : ℚ))
                (w.canvasHeight / (chip8Height : ℚ)) c.2 c.1 v)
              (w.emit (Call.clearRect 0 0 w.canvasWidth w.canvasHeight))
          else w.emit (Call.clearRect 0 0 w.canvasWidth w.canvasHeight)).emit
          Call.requestAnimationFrame := by
  unfold animFrame
  simp only [loops_eq_foldl_rowMajor]
  rfl

/-- A frame whose sweep runs over an arbitrary list of cells. -/
theorem frame_spec {M : Type} (P : WasmPlatform M) (w : World M) (cells : List (Nat × Nat))
    (pw ph : ℚ) (c0 c1 : Call) :
    ((if w.loaded then cells.foldl (fun v c => paintCell P pw ph c.2 c.1 v) (w.emit c0)
        else w.emit c0).emit c1).trace
        = w.trace ++ (c0 :: (if w.loaded then sweepCalls pw ph cells (answers P w.machine cells)
            else []) ++ [c1])
      ∧ ((if w.loaded then cells.foldl (fun v c => paintCell P pw ph c.2 c.1 v) (w.emit c0)
        else w.emit c0).emit c1).loaded = w.loaded
      ∧ ((if w.loaded then cells.foldl (fun v c => paintCell P pw ph c.2 c.1 v) (w.emit c0)
        else w.emit c0).emit c1).machine
          = (if w.loaded then machineAfter P w.machine cells else w.machine)
      ∧ ((if w.loaded then cells.foldl (fun v c => paintCell P pw ph c.2 c.1 v) (w.emit c0)
        else w.emit c0).emit c1).canvasWidth = w.canvasWidth
      ∧ ((if w.loaded then cells.foldl (fun v c => paintCell P pw ph c.2 c.1 v) (w.emit c0)
        else w.emit c0).emit c1).canvasHeight = w.canvasHeight
      ∧ ((if w.loaded then cells.foldl (fun v c => paintCell P pw ph c.2 c.1 v) (w.emit c0)
        else w.emit c0).emit c1).readers = w.readers := by
  by_cases hl : w.loaded = true
  · simp only [if_pos hl]
    obtain ⟨h1, h2, h3, h4, h5, h6⟩ := sweep_spec P pw ph cells (w.emit c0)
    refine ⟨?_, h3, h2, h4, h5, h6⟩
    show (List.foldl _ (w.emit c0) cells).trace ++ [c1] = _
    rw [h1]
    simp [World.emit, List.append_assoc]
  · simp only [if_neg hl]
    exact ⟨by simp [World.emit], rfl, rfl, rfl, rfl, rfl⟩

/-- The calls of one invocation of `animFrame`. -/
theorem animFrame_calls {M : Type} (P : WasmPlatform M) (w : World M) :
    (animFrame P w).trace
      = w.trace ++ (Call.clearRect 0 0 w.canvasWidth w.canvasHeight
          :: (if w.loaded then
                sweepCalls (w.canvasWidth / (chip8Width : ℚ)) (w.canvasHeight / (chip8Height : ℚ))
                  rowMajor (answers P w.machine rowMajor)
              else [])
          ++ [Call.requestAnimationFrame]) := by
  rw [animFrame_eq]
  exact (frame_spec P w rowMajor _ _ _ _).1

theorem animFrame_fields {M : Type} (P : WasmPlatform M) (w : World M) :
    (animFrame P w).loaded = w.loaded
      ∧ (animFrame P w).machine = (if w.loaded then machineAfter P w.machine rowMajor else w.machine)
      ∧ (animFrame P w).canvasWidth = w.canvasWidth
      ∧ (animFrame P w).canvasHeight = w.canvasHeight
      ∧ (animFrame P w).readers = w.readers := by
  rw [animFrame_eq]
  exact (frame_spec P w rowMajor _ _ _ _).2

theorem callsSince_append {M : Type} (w w' : World M) (cs : List Call)
    (h : w'.trace = w.trace ++ cs) : callsSince w w' = cs := by
  simp [callsSince, h]

/-! ## What a sweep looks like from outside -/

theorem answers_length {M : Type} (P : WasmPlatform M) :
    ∀ (cells : List (Nat × Nat)) (m : M), (answers P m cells).length = cells.length := by
  intro cells
  induction cells with
  | nil => intro m; rfl
  | cons c cs ih => intro m; simp [answers, ih]

theorem answers_pure {M : Type} (P : WasmPlatform M)
    (hpure : ∀ m x y, (P.pixel_at m x y).2 = m) :
    ∀ (cells : List (Nat × Nat)) (m : M),
      answers P m cells = cells.map (fun c => (P.pixel_at m (c.1 : Int) (c.2 : Int)).1) := by
  intro cells
  induction cells with
  | nil => intro m; rfl
  | cons c cs ih => intro m; simp [answers, hpure, ih]

theorem machineAfter_pure {M : Type} (P : WasmPlatform M)
    (hpure : ∀ m x y, (P.pixel_at m x y).2 = m) :
    ∀ (cells : List (Nat × Nat)) (m : M), machineAfter P m cells = m := by
  intro cells
  induction cells with
  | nil => intro m; rfl
  | cons c cs ih => intro m; simp [machineAfter, hpure, ih]

theorem sweepCalls_cons (pw ph : ℚ) (c : Nat × Nat) (cs : List (Nat × Nat)) (b : Bool)
    (bs : List Bool) :
    sweepCalls pw ph (c :: cs) (b :: bs) = cellCalls pw ph c b ++ sweepCalls pw ph cs bs := by
  simp [sweepCalls]

theorem pixelQueries_sweep (pw ph : ℚ) :
    ∀ (cells : List (Nat × Nat)) (bs : List Bool), bs.length = cells.length →
      pixelQueries (sweepCalls pw ph cells bs) = cells.map (fun c => ((c.1 : Int), (c.2 : Int))) := by
  intro cells
  induction cells with
  | nil => intro bs _; simp [sweepCalls, pixelQueries]
  | cons c cs ih =>
    intro bs hb
    cases bs with
    | nil => simp at hb
    | cons b bs =>
      have hb' : bs.length = cs.length := by simpa using hb
      have := ih bs hb'
      rw [sweepCalls_cons]
      simp only [pixelQueries] at this ⊢
      rw [List.filterMap_append, this]
      simp [cellCalls, pixelQuery]

theorem fillRects_sweep (pw ph : ℚ) :
    ∀ (cells : List (Nat × Nat)) (bs : List Bool), bs.length = cells.length →
      fillRects (sweepCalls pw ph cells bs)
        = cells.map (fun c => { x := (c.1 : ℚ) * pw, y := (c.2 : ℚ) * ph, w := pw, h := ph }) := by
  intro cells
  induction cells with
  | nil => intro bs _; simp [sweepCalls, fillRects]
  | cons c cs ih =>
    intro bs hb
    cases bs with
    | nil => simp at hb
    | cons b bs =>
      have hb' : bs.length = cs.length := by simpa using hb
      have := ih bs hb'
      rw [sweepCalls_cons]
      simp only [fillRects] at this ⊢
      rw [List.filterMap_append, this]
      simp [cellCalls, filledRect]

/-- Every call of a sweep is a query, a style assignment with one of the two
colours, or a fill with one of the two colours. -/
theorem sweepCalls_mem (pw ph : ℚ) (cells : List (Nat × Nat)) (bs : List Bool) (c : Call)
    (h : c ∈ sweepCalls pw ph cells bs) :
    ∃ cell b, c ∈ cellCalls pw ph cell b := by
  simp only [sweepCalls, List.mem_flatMap] at h
  obtain ⟨cb, _, hc⟩ := h
  exact ⟨cb.1, cb.2, hc⟩

theorem grid_eq_range (w : Nat) (hw : 0 < w) : ∀ h : Nat,
    (List.range h).flatMap (fun y => (List.range w).map (fun x => (x, y)))
      = (List.range (h * w)).map (fun k => (k % w, k / w)) := by
  intro h
  induction h with
  | zero => simp
  | succ h ih =>
    rw [List.range_succ, List.flatMap_append, ih, Nat.succ_mul, List.range_add, List.map_append]
    congr 1
    simp only [List.flatMap_cons, List.flatMap_nil, List.append_nil, List.map_map]
    apply List.map_congr_left
    intro x hx
    have hx' : x < w := List.mem_range.mp hx
    simp only [Function.comp]
    rw [Nat.mul_comm h w, Nat.mul_add_mod, Nat.mod_eq_of_lt hx', Nat.mul_add_div hw,
      Nat.div_eq_of_lt hx', Nat.add_zero]

theorem rowMajor_eq_range : rowMajor = (List.range 2048).map (fun k => (k % 64, k / 64)) :=
  grid_eq_range 64 (by decide) 32

theorem rowMajor_length : rowMajor.length = 2048 := by
  rw [rowMajor_eq_range]; simp

theorem mem_rowMajor (c : Nat × Nat) : c ∈ rowMajor ↔ c.1 < 64 ∧ c.2 < 32 := by
  rw [rowMajor_eq_range, List.mem_map]
  constructor
  · rintro ⟨k, hk, rfl⟩
    have := List.mem_range.mp hk
    constructor
    · exact Nat.mod_lt _ (by decide)
    · show k / 64 < 32
      omega
  · rintro ⟨h1, h2⟩
    refine ⟨c.2 * 64 + c.1, List.mem_range.mpr (by omega), ?_⟩
    apply Prod.ext
    · show (c.2 * 64 + c.1) % 64 = c.1
      omega
    · show (c.2 * 64 + c.1) / 64 = c.2
      omega

theorem rowMajor_nodup : rowMajor.Nodup := by
  rw [rowMajor_eq_range]
  apply List.Nodup.map _ (List.nodup_range _)
  intro a b hab
  have h1 : a % 64 = b % 64 := congrArg Prod.fst hab
  have h2 : a / 64 = b / 64 := congrArg Prod.snd hab
  omega

/-! ## The frame callback -/

theorem animFrame_callsSince {M : Type} (P : WasmPlatform M) (w : World M) :
    callsSince w (animFrame P w)
      = Call.clearRect 0 0 w.canvasWidth w.canvasHeight
          :: (if w.loaded then
                sweepCalls (w.canvasWidth / (chip8Width : ℚ)) (w.canvasHeight / (chip8Height : ℚ))
                  rowMajor (answers P w.machine rowMajor)
              else [])
          ++ [Call.requestAnimationFrame] :=
  callsSince_append w _ _ (animFrame_calls P w)

theorem animFrame_pixelQueries {M : Type} (P : WasmPlatform M) (w : World M)
    (hl : w.loaded = true) :
    pixelQueries (callsSince w (animFrame P w))
      = rowMajor.map (fun c => ((c.1 : Int), (c.2 : Int))) := by
  rw [animFrame_callsSince, if_pos hl]
  have h := pixelQueries_sweep (w.canvasWidth / (chip8Width : ℚ))
    (w.canvasHeight / (chip8Height : ℚ)) rowMajor (answers P w.machine rowMajor)
    (answers_length P rowMajor w.machine)
  simp only [pixelQueries] at h ⊢
  simp only [List.filterMap_append, List.filterMap_cons, h, pixelQuery, List.filterMap_nil,
    List.append_nil]

theorem mem_cellCalls (pw ph : ℚ) (cell : Nat × Nat) (b : Bool) (c : Call)
    (h : c ∈ cellCalls pw ph cell b) :
    c = Call.pixel_at (cell.1 : Int) (cell.2 : Int) b
      ∨ c = Call.setFillStyle (if b then "#ffffff" else "#000000")
      ∨ c = Call.fillRect ((cell.1 : ℚ) * pw) ((cell.2 : ℚ) * ph) pw ph
          (if b then "#ffffff" else "#000000") := by
  simpa [cellCalls] using h

theorem two_colours (b : Bool) :
    (if b then "#ffffff" else "#000000") = "#ffffff"
      ∨ (if b then "#ffffff" else "#000000") = "#000000" := by
  cases b
  · exact Or.inr rfl
  · exact Or.inl rfl

/-- Where a call of a frame comes from. -/
theorem mem_animFrame_calls {M : Type} (P : WasmPlatform M) (w : World M) (c : Call)
    (h : c ∈ callsSince w (animFrame P w)) :
    c = Call.clearRect 0 0 w.canvasWidth w.canvasHeight
      ∨ c = Call.requestAnimationFrame
      ∨ (w.loaded = true ∧ ∃ cell b, c ∈ cellCalls (w.canvasWidth / (chip8Width : ℚ))
          (w.canvasHeight / (chip8Height : ℚ)) cell b) := by
  rw [animFrame_callsSince] at h
  rcases List.mem_append.mp h with h | h
  · rcases List.mem_cons.mp h with h | h
    · exact Or.inl h
    · by_cases hl : w.loaded = true
      · rw [if_pos hl] at h
        exact Or.inr (Or.inr ⟨hl, sweepCalls_mem _ _ _ _ c h⟩)
      · rw [if_neg hl] at h
        simp at h
  · exact Or.inr (Or.inl (by simpa using h))

/-- A frame makes no `tick`, `load_rom` or `keypress` call. -/
theorem animFrame_machine_calls {M : Type} (P : WasmPlatform M) (w : World M) :
    ∀ c ∈ callsSince w (animFrame P w),
      c.isTick = false ∧ c.isLoadRom = false ∧ c.isKeypress = false := by
  intro c h
  rcases mem_animFrame_calls P w _ h with h | h | ⟨_, cell, b, h⟩
  · rw [h]; exact ⟨rfl, rfl, rfl⟩
  · rw [h]; exact ⟨rfl, rfl, rfl⟩
  · rcases mem_cellCalls _ _ _ _ _ h with h | h | h <;> rw [h] <;> exact ⟨rfl, rfl, rfl⟩

/-! ## The tiling of the canvas -/

/-- The rectangle painted for a cell when the canvas is 1280 x 640. -/
theorem tile_covers_iff (c : Nat × Nat) (p q : ℚ) :
    Rect.covers { x := 20 * (c.1 : ℚ), y := 20 * (c.2 : ℚ), w := 20, h := 20 } p q
      ↔ 20 * (c.1 : ℚ) ≤ p ∧ p < 20 * (c.1 : ℚ) + 20 ∧ 20 * (c.2 : ℚ) ≤ q
          ∧ q < 20 * (c.2 : ℚ) + 20 := Iff.rfl

theorem tiles_disjoint (a b : Nat × Nat) (hab : a ≠ b) (p q : ℚ) :
    ¬ (Rect.covers { x := 20 * (a.1 : ℚ), y := 20 * (a.2 : ℚ), w := 20, h := 20 } p q
        ∧ Rect.covers { x := 20 * (b.1 : ℚ), y := 20 * (b.2 : ℚ), w := 20, h := 20 } p q) := by
  rintro ⟨ha, hb⟩
  rw [tile_covers_iff] at ha hb
  obtain ⟨a1, a2, a3, a4⟩ := ha
  obtain ⟨b1, b2, b3, b4⟩ := hb
  have h1 : (a.1 : ℚ) < (b.1 : ℚ) + 1 := by linarith
  have h2 : (b.1 : ℚ) < (a.1 : ℚ) + 1 := by linarith
  have h3 : (a.2 : ℚ) < (b.2 : ℚ) + 1 := by linarith
  have h4 : (b.2 : ℚ) < (a.2 : ℚ) + 1 := by linarith
  have h1' : a.1 < b.1 + 1 := by exact_mod_cast h1
  have h2' : b.1 < a.1 + 1 := by exact_mod_cast h2
  have h3' : a.2 < b.2 + 1 := by exact_mod_cast h3
  have h4' : b.2 < a.2 + 1 := by exact_mod_cast h4
  exact hab (Prod.ext (by omega) (by omega))

theorem tiles_cover (p q : ℚ) (hp0 : 0 ≤ p) (hp1 : p < 1280) (hq0 : 0 ≤ q) (hq1 : q < 640) :
    ∃ c ∈ rowMajor,
      Rect.covers { x := 20 * (c.1 : ℚ), y := 20 * (c.2 : ℚ), w := 20, h := 20 } p q := by
  have hp : 0 ≤ p / 20 := by positivity
  have hq : 0 ≤ q / 20 := by positivity
  refine ⟨(⌊p / 20⌋₊, ⌊q / 20⌋₊), (mem_rowMajor _).mpr ⟨?_, ?_⟩, ?_⟩
  · show ⌊p / 20⌋₊ < 64
    rw [Nat.floor_lt hp]
    push_cast
    linarith
  · show ⌊q / 20⌋₊ < 32
    rw [Nat.floor_lt hq]
    push_cast
    linarith
  · rw [tile_covers_iff]
    have f1 := Nat.floor_le hp
    have f2 := Nat.lt_floor_add_one (p / 20)
    have f3 := Nat.floor_le hq
    have f4 := Nat.lt_floor_add_one (q / 20)
    refine ⟨?_, ?_, ?_, ?_⟩
    · show 20 * ((⌊p / 20⌋₊ : Nat) : ℚ) ≤ p
      linarith
    · show p < 20 * ((⌊p / 20⌋₊ : Nat) : ℚ) + 20
      linarith
    · show 20 * ((⌊q / 20⌋₊ : Nat) : ℚ) ≤ q
      linarith
    · show q < 20 * ((⌊q / 20⌋₊ : Nat) : ℚ) + 20
      linarith

theorem tile_inside (c : Nat × Nat) (hc : c ∈ rowMajor) (p q : ℚ)
    (h : Rect.covers { x := 20 * (c.1 : ℚ), y := 20 * (c.2 : ℚ), w := 20, h := 20 } p q) :
    0 ≤ p ∧ p < 1280 ∧ 0 ≤ q ∧ q < 640 := by
  rw [tile_covers_iff] at h
  obtain ⟨h1, h2, h3, h4⟩ := h
  obtain ⟨c1, c2⟩ := (mem_rowMajor c).mp hc
  have d1 : (c.1 : ℚ) ≤ 63 := by exact_mod_cast (by omega : c.1 ≤ 63)
  have d2 : (c.2 : ℚ) ≤ 31 := by exact_mod_cast (by omega : c.2 ≤ 31)
  have d3 : (0 : ℚ) ≤ (c.1 : ℚ) := Nat.cast_nonneg _
  have d4 : (0 : ℚ) ≤ (c.2 : ℚ) := Nat.cast_nonneg _
  refine ⟨by linarith, by linarith, by linarith, by linarith⟩

theorem animFrame_fillRects {M : Type} (P : WasmPlatform M) (w : World M)
    (hl : w.loaded = true) :
    fillRects (callsSince w (animFrame P w))
      = rowMajor.map (fun c =>
          { x := (c.1 : ℚ) * (w.canvasWidth / (chip8Width : ℚ)),
            y := (c.2 : ℚ) * (w.canvasHeight / (chip8Height : ℚ)),
            w := w.canvasWidth / (chip8Width : ℚ), h := w.canvasHeight / (chip8Height : ℚ) }) := by
  rw [animFrame_callsSince, if_pos hl]
  have h := fillRects_sweep (w.canvasWidth / (chip8Width : ℚ))
    (w.canvasHeight / (chip8Height : ℚ)) rowMajor (answers P w.machine rowMajor)
    (answers_length P rowMajor w.machine)
  simp only [fillRects] at h ⊢
  simp only [List.filterMap_append, List.filterMap_cons, h, filledRect, List.filterMap_nil,
    List.append_nil]

/-! ## The other handlers -/

theorem ofBuffer_elements (buf : ArrayBuffer) : (Uint8Array.ofBuffer buf).elements = buf := by
  simp [Uint8Array.ofBuffer, Uint8Array.elements]

theorem clockCallback_trace {M : Type} (P : WasmPlatform M) (w : World M) :
    (clockCallback P w).trace
      = w.trace ++ (if w.loaded then [Call.tick (P.tick w.machine).1] else []) := by
  unfold clockCallback
  by_cases hl : w.loaded = true
  · simp [hl, World.emit]
  · simp [hl]

theorem clockCallback_loaded {M : Type} (P : WasmPlatform M) (w : World M) :
    (clockCallback P w).loaded = w.loaded := by
  unfold clockCallback
  by_cases hl : w.loaded = true
  · simp only [if_pos hl]; rfl
  · simp only [if_neg hl]

theorem onInit_trace {M : Type} (w : World M) :
    (onInit w).trace
      = w.trace ++ [Call.requestAnimationFrame, Call.setInterval (1000 / clocksPerSec)] := by
  simp [onInit, World.emit]

theorem onReaderLoad_trace {M : Type} (P : WasmPlatform M) (buf : ArrayBuffer) (w : World M) :
    (onReaderLoad P buf w).trace
      = w.trace ++ [Call.load_rom buf (P.load_rom w.machine buf).1] := by
  unfold onReaderLoad
  simp only [ofBuffer_elements]
  split <;> rfl

theorem onReaderLoad_loaded {M : Type} (P : WasmPlatform M) (buf : ArrayBuffer) (w : World M) :
    (onReaderLoad P buf w).loaded
      = (if (P.load_rom w.machine buf).1 = Outcome.returned then true else w.loaded) := by
  unfold onReaderLoad
  simp only [ofBuffer_elements]
  split
  · next h => simp [h]
  · next h => simp [h, World.emit]

theorem onChange_trace {M : Type} (files : List File) (w : World M) :
    (onChange files w).trace
      = w.trace ++ (match files.head? with
          | some romFile => [Call.readAsArrayBuffer romFile]
          | none => []) := by
  unfold onChange
  split <;> simp [World.emit]

theorem onChange_loaded {M : Type} (files : List File) (w : World M) :
    (onChange files w).loaded = w.loaded := by
  unfold onChange
  split <;> rfl

theorem onKeydown_trace {M : Type} (P : WasmPlatform M) (key : String) (w : World M) :
    (onKeydown P key w).trace
      = w.trace ++ [Call.keypress (JsValue.string key) true
          (P.keypress w.machine (JsValue.string key) true).1] := rfl

theorem onKeyup_trace {M : Type} (P : WasmPlatform M) (key : String) (w : World M) :
    (onKeyup P key w).trace
      = w.trace ++ [Call.keypress (JsValue.string key) false
          (P.keypress w.machine (JsValue.string key) false).1] := rfl

/-- The calls of one event, by event. -/
theorem step_calls {M : Type} (P : WasmPlatform M) (e : Event) (w : World M) :
    ∃ cs, (step P e w).trace = w.trace ++ cs
      ∧ (e ≠ Event.clockFiring → ∀ c ∈ cs, c.isTick = false)
      ∧ (e ≠ Event.animationFrame → ∀ c ∈ cs, c.isPixelAt = false)
      ∧ (w.loaded = false → ∀ c ∈ cs, c.isTick = false ∧ c.isPixelAt = false)
      ∧ (w.loaded = true → (step P e w).loaded = true)
      ∧ ((step P e w).loaded = true → w.loaded = true ∨ ∃ l ∈ cs, l.isLoadReturned = true) := by
  cases e with
  | animationFrame =>
    refine ⟨_, animFrame_calls P w, ?_, fun h => absurd rfl h, ?_, ?_, ?_⟩
    · intro _ c hc
      have hc' : c ∈ callsSince w (animFrame P w) := by rw [animFrame_callsSince]; exact hc
      exact (animFrame_machine_calls P w c hc').1
    · intro hl c hc
      rw [hl] at hc
      simp at hc
      rcases hc with h | h <;> rw [h] <;> exact ⟨rfl, rfl⟩
    · intro hl
      show (animFrame P w).loaded = true
      rw [(animFrame_fields P w).1, hl]
    · intro hl
      left
      rw [← (animFrame_fields P w).1]
      exact hl
  | clockFiring =>
    refine ⟨_, clockCallback_trace P w, fun h => absurd rfl h, ?_, ?_, ?_, ?_⟩
    · intro _ c hc
      split at hc
      · simp at hc; rw [hc]; rfl
      · simp at hc
    · intro hl c hc
      rw [hl] at hc
      simp at hc
    · intro hl
      show (clockCallback P w).loaded = true
      rw [clockCallback_loaded, hl]
    · intro hl
      left
      rw [← clockCallback_loaded P w]
      exact hl
  | change files =>
    have hq : ∀ c ∈ (match files.head? with
          | some romFile => [Call.readAsArrayBuffer romFile]
          | none => []), c.isTick = false ∧ c.isPixelAt = false := by
      intro c hc
      split at hc
      · simp at hc; rw [hc]; exact ⟨rfl, rfl⟩
      · simp at hc
    refine ⟨_, onChange_trace files w, fun _ c hc => (hq c hc).1, fun _ c hc => (hq c hc).2,
      fun _ => hq, ?_, ?_⟩
    · intro hl
      show (onChange files w).loaded = true
      rw [onChange_loaded, hl]
    · intro hl
      left
      rw [← onChange_loaded files w]
      exact hl
  | readerLoad i =>
    cases hr : w.readers.get? i with
    | none =>
      have hs : step P (Event.readerLoad i) w = w := by simp only [step, hr]
      rw [hs]
      exact ⟨[], by simp, by simp, by simp, by simp, fun h => h, fun h => Or.inl h⟩
    | some buf =>
      have hs : step P (Event.readerLoad i) w
          = onReaderLoad P buf { w with readers := w.readers.eraseIdx i } := by
        simp only [step, hr]
      rw [hs]
      have hq : ∀ c ∈ [Call.load_rom buf (P.load_rom w.machine buf).1],
          c.isTick = false ∧ c.isPixelAt = false := by
        intro c hc
        simp at hc; rw [hc]; exact ⟨rfl, rfl⟩
      refine ⟨_, onReaderLoad_trace P buf _, fun _ c hc => (hq c hc).1,
        fun _ c hc => (hq c hc).2, fun _ => hq, ?_, ?_⟩
      · intro hl
        rw [onReaderLoad_loaded]
        split
        · rfl
        · exact hl
      · intro hl
        rw [onReaderLoad_loaded] at hl
        by_cases hok : (P.load_rom w.machine buf).1 = Outcome.returned
        · right
          refine ⟨_, List.mem_singleton.mpr rfl, ?_⟩
          show Call.isLoadReturned (Call.load_rom buf (P.load_rom w.machine buf).1) = true
          rw [hok]
          rfl
        · left
          simpa [hok] using hl
  | keydown key =>
    have hq : ∀ c ∈ [Call.keypress (JsValue.string key) true
          (P.keypress w.machine (JsValue.string key) true).1],
          c.isTick = false ∧ c.isPixelAt = false := by
      intro c hc
      simp at hc; rw [hc]; exact ⟨rfl, rfl⟩
    exact ⟨_, onKeydown_trace P key w, fun _ c hc => (hq c hc).1, fun _ c hc => (hq c hc).2,
      fun _ => hq, fun h => h, fun h => Or.inl h⟩
  | keyup key =>
    have hq : ∀ c ∈ [Call.keypress (JsValue.string key) false
          (P.keypress w.machine (JsValue.string key) false).1],
          c.isTick = false ∧ c.isPixelAt = false := by
      intro c hc
      simp at hc; rw [hc]; exact ⟨rfl, rfl⟩
    exact ⟨_, onKeyup_trace P key w, fun _ c hc => (hq c hc).1, fun _ c hc => (hq c hc).2,
      fun _ => hq, fun h => h, fun h => Or.inl h⟩

/-! ## Runs of events -/

theorem step_trace {M : Type} (P : WasmPlatform M) (e : Event) (w : World M) :
    (step P e w).trace = w.trace ++ callsSince w (step P e w) := by
  obtain ⟨cs, h, _⟩ := step_calls P e w
  rw [callsSince_append w _ cs h, h]

theorem step_no_tick {M : Type} (P : WasmPlatform M) (e : Event) (w : World M)
    (he : e ≠ Event.clockFiring) : ∀ c ∈ callsSince w (step P e w), c.isTick = false := by
  obtain ⟨cs, h, h1, _⟩ := step_calls P e w
  rw [callsSince_append w _ cs h]
  exact h1 he

theorem step_no_query {M : Type} (P : WasmPlatform M) (e : Event) (w : World M)
    (he : e ≠ Event.animationFrame) : ∀ c ∈ callsSince w (step P e w), c.isPixelAt = false := by
  obtain ⟨cs, h, _, h1, _⟩ := step_calls P e w
  rw [callsSince_append w _ cs h]
  exact h1 he

theorem step_quiet {M : Type} (P : WasmPlatform M) (e : Event) (w : World M)
    (hl : w.loaded = false) :
    ∀ c ∈ callsSince w (step P e w), c.isTick = false ∧ c.isPixelAt = false := by
  obtain ⟨cs, h, _, _, h2, _⟩ := step_calls P e w
  rw [callsSince_append w _ cs h]
  exact h2 hl

theorem step_loaded_mono {M : Type} (P : WasmPlatform M) (e : Event) (w : World M)
    (hl : w.loaded = true) : (step P e w).loaded = true := by
  obtain ⟨_, _, _, _, _, h3, _⟩ := step_calls P e w
  exact h3 hl

theorem step_loaded_source {M : Type} (P : WasmPlatform M) (e : Event) (w : World M)
    (hl : (step P e w).loaded = true) :
    w.loaded = true ∨ ∃ l ∈ callsSince w (step P e w), l.isLoadReturned = true := by
  obtain ⟨cs, h, _, _, _, _, h4⟩ := step_calls P e w
  rw [callsSince_append w _ cs h]
  exact h4 hl

theorem run_cons {M : Type} (P : WasmPlatform M) (e : Event) (es : List Event) (w : World M) :
    run P (e :: es) w = run P es (step P e w) := rfl

theorem run_trace {M : Type} (P : WasmPlatform M) :
    ∀ (es : List Event) (w : World M),
      (run P es w).trace = w.trace ++ callsSince w (run P es w) := by
  intro es
  induction es with
  | nil => intro w; simp [run, callsSince]
  | cons e es ih =>
    intro w
    have h : (run P (e :: es) w).trace
        = w.trace ++ (callsSince w (step P e w)
            ++ callsSince (step P e w) (run P es (step P e w))) := by
      rw [run_cons, ih (step P e w), step_trace P e w, List.append_assoc]
    rw [callsSince_append w _ _ h, h]

theorem callsSince_run_cons {M : Type} (P : WasmPlatform M) (e : Event) (es : List Event)
    (w : World M) :
    callsSince w (run P (e :: es) w)
      = callsSince w (step P e w) ++ callsSince (step P e w) (run P es (step P e w)) := by
  apply callsSince_append
  rw [run_cons, run_trace P es (step P e w), step_trace P e w, List.append_assoc]

/-- While no `load_rom` call returns, an unloaded wrapper stays unloaded and
makes no `tick` or `pixel_at` call. -/
theorem run_quiet {M : Type} (P : WasmPlatform M) :
    ∀ (es : List Event) (w : World M), w.loaded = false →
      (∀ c ∈ callsSince w (run P es w), c.isLoadReturned = false) →
      (run P es w).loaded = false
        ∧ ∀ c ∈ callsSince w (run P es w), c.isTick = false ∧ c.isPixelAt = false := by
  intro es
  induction es with
  | nil =>
    intro w hl _
    refine ⟨hl, ?_⟩
    intro c hc
    simp [run, callsSince] at hc
  | cons e es ih =>
    intro w hl hno
    rw [callsSince_run_cons] at hno
    have hl' : (step P e w).loaded = false := by
      cases hs : (step P e w).loaded with
      | false => rfl
      | true =>
        rcases step_loaded_source P e w hs with h | ⟨l, hl1, hl2⟩
        · rw [hl] at h; cases h
        · have := hno l (List.mem_append_left _ hl1)
          rw [this] at hl2; cases hl2
    obtain ⟨h1, h2⟩ := ih (step P e w) hl' (fun c hc => hno c (List.mem_append_right _ hc))
    refine ⟨h1, ?_⟩
    intro c hc
    rw [callsSince_run_cons] at hc
    rcases List.mem_append.mp hc with hc | hc
    · exact step_quiet P e w hl c hc
    · exact h2 c hc

/-! ## Loading a ROM -/

theorem step_readerLoad {M : Type} (P : WasmPlatform M) (w : World M) (i : Nat)
    (buf : ArrayBuffer) (h : w.readers.get? i = some buf) :
    step P (Event.readerLoad i) w
      = onReaderLoad P buf { w with readers := w.readers.eraseIdx i } := by
  simp only [step, h]

theorem refPlatform_rejects (m : RefMachine) (bytes : List (Fin 256))
    (h : 0x1000 - 0x200 < bytes.length) : (refPlatform.load_rom m bytes).1 = Outcome.threw := by
  have h' : ¬ bytes.length ≤ 0x1000 - 0x200 := by omega
  simp only [refPlatform, if_neg h']

theorem oversized_rejected (m : RefMachine) :
    (refPlatform.load_rom m (Uint8Array.ofBuffer oversizedRom).elements).1 = Outcome.threw := by
  rw [ofBuffer_elements]
  apply refPlatform_rejects
  show 0x1000 - 0x200 < (List.replicate 3585 (0 : Fin 256)).length
  rw [List.length_replicate]
  decide

/-! ## Nothing runs before a ROM is loaded -/

/-- Appending calls that are neither `tick` nor `pixel_at` keeps a trace in
which every `tick` and `pixel_at` comes after a returned `load_rom`. -/
theorem guarded_append_quiet (t n : List Call)
    (ht : ∀ pre c post, t = pre ++ c :: post → (c.isTick = true ∨ c.isPixelAt = true) →
      ∃ l ∈ pre, l.isLoadReturned = true)
    (hn : ∀ c ∈ n, c.isTick = false ∧ c.isPixelAt = false) :
    ∀ pre c post, t ++ n = pre ++ c :: post → (c.isTick = true ∨ c.isPixelAt = true) →
      ∃ l ∈ pre, l.isLoadReturned = true := by
  intro pre c post heq hc
  rcases List.append_eq_append_iff.mp heq with ⟨a, _, h2⟩ | ⟨a, h1, h2⟩
  · have hmem : c ∈ n := by rw [h2]; simp
    obtain ⟨q1, q2⟩ := hn c hmem
    rcases hc with hc | hc
    · rw [q1] at hc; cases hc
    · rw [q2] at hc; cases hc
  · cases a with
    | nil =>
      have hmem : c ∈ n := by
        have : c :: post = n := by simpa using h2
        rw [← this]; simp
      obtain ⟨q1, q2⟩ := hn c hmem
      rcases hc with hc | hc
      · rw [q1] at hc; cases hc
      · rw [q2] at hc; cases hc
    | cons d a =>
      have hd : c = d := by
        have := h2
        simp only [List.cons_append, List.cons.injEq] at this
        exact this.1
      subst hd
      exact ht pre c a h1 hc

/-- Appending anything to a trace that already holds a returned `load_rom`
keeps every `tick` and `pixel_at` after a returned `load_rom`. -/
theorem guarded_append_loaded (t n : List Call)
    (ht : ∀ pre c post, t = pre ++ c :: post → (c.isTick = true ∨ c.isPixelAt = true) →
      ∃ l ∈ pre, l.isLoadReturned = true)
    (hload : ∃ l ∈ t, l.isLoadReturned = true) :
    ∀ pre c post, t ++ n = pre ++ c :: post → (c.isTick = true ∨ c.isPixelAt = true) →
      ∃ l ∈ pre, l.isLoadReturned = true := by
  intro pre c post heq hc
  obtain ⟨l, hl1, hl2⟩ := hload
  rcases List.append_eq_append_iff.mp heq with ⟨a, h1, _⟩ | ⟨a, h1, h2⟩
  · exact ⟨l, by rw [h1]; exact List.mem_append_left _ hl1, hl2⟩
  · cases a with
    | nil =>
      have : t = pre := by simpa using h1
      exact ⟨l, by rw [← this]; exact hl1, hl2⟩
    | cons d a =>
      have hd : c = d := by
        have := h2
        simp only [List.cons_append, List.cons.injEq] at this
        exact this.1
      subst hd
      exact ht pre c a h1 hc

/-- The invariant of the event system. -/
theorem run_guarded {M : Type} (P : WasmPlatform M) :
    ∀ (es : List Event) (w : World M),
      (∀ pre c post, w.trace = pre ++ c :: post → (c.isTick = true ∨ c.isPixelAt = true) →
        ∃ l ∈ pre, l.isLoadReturned = true) →
      (w.loaded = true → ∃ l ∈ w.trace, l.isLoadReturned = true) →
      ∀ pre c post, (run P es w).trace = pre ++ c :: post →
        (c.isTick = true ∨ c.isPixelAt = true) → ∃ l ∈ pre, l.isLoadReturned = true := by
  intro es
  induction es with
  | nil => intro w h1 _; exact h1
  | cons e es ih =>
    intro w h1 h2
    rw [run_cons]
    apply ih (step P e w)
    · rw [step_trace P e w]
      cases hl : w.loaded with
      | false => exact guarded_append_quiet _ _ h1 (step_quiet P e w hl)
      | true => exact guarded_append_loaded _ _ h1 (h2 hl)
    · intro hl'
      rw [step_trace P e w]
      rcases step_loaded_source P e w hl' with h | ⟨l, hl1, hl2⟩
      · obtain ⟨l, hl1, hl2⟩ := h2 h
        exact ⟨l, List.mem_append_left _ hl1, hl2⟩
      · exact ⟨l, List.mem_append_right _ hl1, hl2⟩

/-! ## The claims -/

/-- C1: in a frame rendered while `loaded` is true, the display queries are
exactly the row-major enumeration of the 64 x 32 grid (rows `y = 0..31`
outermost, columns `x = 0..63` innermost): there are 2048 of them, each within
`0 <= x <= 63` and `0 <= y <= 31`, and each cell of the grid is queried exactly
once.  No handler other than the frame callback queries the display, so every
display query of every event is in range. -/
theorem animFrame_queries_row_major {M : Type} (P : WasmPlatform M) (w : World M)
    (hl : w.loaded = true) :
    pixelQueries (callsSince w (animFrame P w))
        = (List.range 32).flatMap (fun y => (List.range 64).map (fun x => ((x : Int), (y : Int))))
      ∧ (pixelQueries (callsSince w (animFrame P w))).length = 2048
      ∧ (∀ q ∈ pixelQueries (callsSince w (animFrame P w)),
          0 ≤ q.1 ∧ q.1 ≤ 63 ∧ 0 ≤ q.2 ∧ q.2 ≤ 31)
      ∧ (∀ x y : Int, 0 ≤ x → x ≤ 63 → 0 ≤ y → y ≤ 31 →
          (pixelQueries (callsSince w (animFrame P w))).countP (fun q => decide (q = (x, y))) = 1)
      ∧ (∀ (e : Event) (v : World M), ∀ q ∈ pixelQueries (callsSince v (step P e v)),
          0 ≤ q.1 ∧ q.1 ≤ 63 ∧ 0 ≤ q.2 ∧ q.2 ≤ 31) := by
  have hrange : ∀ q ∈ rowMajor.map (fun c : Nat × Nat => ((c.1 : Int), (c.2 : Int))),
      0 ≤ q.1 ∧ q.1 ≤ 63 ∧ 0 ≤ q.2 ∧ q.2 ≤ 31 := by
    intro q hq
    obtain ⟨c, hc, rfl⟩ := List.mem_map.mp hq
    have := (mem_rowMajor c).mp hc
    simp only
    omega
  refine ⟨?_, ?_, ?_, ?_, ?_⟩
  · rw [animFrame_pixelQueries P w hl]
    unfold rowMajor chip8Height chip8Width
    rw [List.map_flatMap]
    simp only [List.map_map]
    rfl
  · rw [animFrame_pixelQueries P w hl]
    simp [rowMajor_length]
  · rw [animFrame_pixelQueries P w hl]
    exact hrange
  · rw [animFrame_pixelQueries P w hl]
    intro x y hx0 hx1 hy0 hy1
    refine List.count_eq_one_of_mem (α := Int × Int) ?_ ?_
    · apply List.Nodup.map _ rowMajor_nodup
      intro a b hab
      have h1 : (a.1 : Int) = (b.1 : Int) := congrArg Prod.fst hab
      have h2 : (a.2 : Int) = (b.2 : Int) := congrArg Prod.snd hab
      exact Prod.ext (by exact_mod_cast h1) (by exact_mod_cast h2)
    · refine List.mem_map.mpr ⟨(x.toNat, y.toNat), (mem_rowMajor _).mpr ⟨?_, ?_⟩, ?_⟩
      · show x.toNat < 64
        omega
      · show y.toNat < 32
        omega
      · apply Prod.ext
        · show ((x.toNat : Nat) : Int) = x
          omega
        · show ((y.toNat : Nat) : Int) = y
          omega
  · intro e v q hq
    by_cases he : e = Event.animationFrame
    · subst he
      have hq' : q ∈ pixelQueries (callsSince v (animFrame P v)) := hq
      cases hv : v.loaded with
      | true =>
        rw [animFrame_pixelQueries P v hv] at hq'
        exact hrange q hq'
      | false =>
        rw [animFrame_callsSince, hv] at hq'
        simp [pixelQueries, pixelQuery] at hq'
    · exfalso
      obtain ⟨c, hc, hcq⟩ := List.mem_filterMap.mp hq
      have := step_no_query P e v he c hc
      cases c <;> simp [pixelQuery, Call.isPixelAt] at hcq this

theorem animFrame_queries_row_major_witness :
    loadedWorld.loaded = true
      ∧ pixelQueries (callsSince loadedWorld (animFrame refPlatform loadedWorld))
        = (List.range 32).flatMap (fun y => (List.range 64).map (fun x => ((x : Int), (y : Int)))) :=
  ⟨rfl, (animFrame_queries_row_major refPlatform loadedWorld rfl).1⟩

/-- C2, as stated, fails: the key `q` goes down on the freshly started wrapper
and the first argument of the resulting `keypress` call is not a logical key
index. -/
theorem keydown_q_not_key_index :
    ¬ (∀ k ∈ keyArgs (callsSince freshWorld (step refPlatform (Event.keydown "q") freshWorld)),
        isLogicalKeyIndex k = true) := by
  intro h
  have hk : JsValue.string "q"
      ∈ keyArgs (callsSince freshWorld (step refPlatform (Event.keydown "q") freshWorld)) := by
    have e : callsSince freshWorld (step refPlatform (Event.keydown "q") freshWorld) = _ :=
      callsSince_append freshWorld _ _ (onKeydown_trace refPlatform "q" freshWorld)
    rw [e]
    simp [keyArgs, keyArg]
  have := h _ hk
  simp [isLogicalKeyIndex] at this

/-- C2, amended: the wrapper maps nothing; for every `keydown` and every
`keyup` event the first argument of the one `keypress` call is the string
`ev.key` itself, which is never a logical key index 0..15. -/
theorem keypress_argument_is_event_key {M : Type} (P : WasmPlatform M) (w : World M)
    (key : String) :
    keyArgs (callsSince w (step P (Event.keydown key) w)) = [JsValue.string key]
      ∧ keyArgs (callsSince w (step P (Event.keyup key) w)) = [JsValue.string key]
      ∧ isLogicalKeyIndex (JsValue.string key) = false := by
  refine ⟨?_, ?_, rfl⟩
  · have e : callsSince w (step P (Event.keydown key) w) = _ :=
      callsSince_append w _ _ (onKeydown_trace P key w)
    rw [e]
    rfl
  · have e : callsSince w (step P (Event.keyup key) w) = _ :=
      callsSince_append w _ _ (onKeyup_trace P key w)
    rw [e]
    rfl

/-- C3: a firing of the clock interval calls `tick` exactly once when `loaded`
is true and makes no call at all when it is false; `onInit` asks `setInterval`
for a period of `1000 / clocksPerSec`, which is exactly 1; and no other
handler (frame, file selection, completed read, key down, key up) nor `onInit`
itself calls `tick`. -/
theorem tick_only_on_clock {M : Type} (P : WasmPlatform M) (w : World M) :
    callsSince w (step P Event.clockFiring w)
        = (if w.loaded then [Call.tick (P.tick w.machine).1] else [])
      ∧ (callsSince w (step P Event.clockFiring w)).countP Call.isTick
        = (if w.loaded then 1 else 0)
      ∧ callsSince w (onInit w) = [Call.requestAnimationFrame, Call.setInterval 1]
      ∧ (1000 : ℚ) / clocksPerSec = 1
      ∧ (∀ e, e ≠ Event.clockFiring → ∀ c ∈ callsSince w (step P e w), c.isTick = false) := by
  have hc : callsSince w (step P Event.clockFiring w)
      = (if w.loaded then [Call.tick (P.tick w.machine).1] else []) :=
    callsSince_append w _ _ (clockCallback_trace P w)
  have hp : (1000 : ℚ) / clocksPerSec = 1 := by norm_num [clocksPerSec]
  refine ⟨hc, ?_, ?_, hp, fun e he => step_no_tick P e w he⟩
  · rw [hc]
    by_cases hl : w.loaded = true
    · simp [hl, Call.isTick]
    · simp [hl]
  · rw [callsSince_append w _ _ (onInit_trace w), hp]

/-- C4: selecting a file starts a read of that file's contents; when a read in
flight completes with the bytes `buf`, the wrapper makes exactly one call, and
it is `load_rom` with exactly `buf`: the typed array handed over views the
buffer from offset 0 over its whole length, whatever that length is.  So a
file that is selected and then read reaches `load_rom` byte for byte. -/
theorem load_rom_receives_file_bytes {M : Type} (P : WasmPlatform M) (w : World M) (i : Nat)
    (buf : ArrayBuffer) (h : w.readers.get? i = some buf) :
    callsSince w (step P (Event.readerLoad i) w)
        = [Call.load_rom buf (P.load_rom w.machine buf).1]
      ∧ (Uint8Array.ofBuffer buf).byteOffset = 0
      ∧ (Uint8Array.ofBuffer buf).length = buf.length
      ∧ (Uint8Array.ofBuffer buf).elements = buf
      ∧ (∀ (f : File) (rest : List File),
          (step P (Event.change (f :: rest)) w).readers = w.readers ++ [f.contents])
      ∧ (∀ (f : File) (rest : List File),
          callsSince w (step P (Event.readerLoad w.readers.length)
              (step P (Event.change (f :: rest)) w))
            = [Call.readAsArrayBuffer f,
               Call.load_rom f.contents (P.load_rom w.machine f.contents).1]) := by
  refine ⟨?_, rfl, rfl, ofBuffer_elements buf, fun f rest => rfl, ?_⟩
  · rw [step_readerLoad P w i buf h]
    exact callsSince_append w _ _ (onReaderLoad_trace P buf _)
  · intro f rest
    have hr : (step P (Event.change (f :: rest)) w).readers.get? w.readers.length
        = some f.contents := by
      show (w.readers ++ [f.contents]).get? w.readers.length = some f.contents
      simp
    rw [step_readerLoad P _ _ _ hr]
    apply callsSince_append
    rw [onReaderLoad_trace]
    show (w.trace ++ [Call.readAsArrayBuffer f]) ++ _ = _
    rw [List.append_assoc]
    rfl

theorem load_rom_receives_file_bytes_witness :
    readingWorld.readers.get? 0 = some sampleFile.contents
      ∧ callsSince readingWorld (step refPlatform (Event.readerLoad 0) readingWorld)
        = [Call.load_rom sampleFile.contents
            (refPlatform.load_rom readingWorld.machine sampleFile.contents).1] :=
  ⟨rfl, (load_rom_receives_file_bytes refPlatform readingWorld 0 sampleFile.contents rfl).1⟩

/-- C5: a `keydown` event makes exactly one call, `keypress(ev.key, true)`, and
a `keyup` event exactly one call, `keypress(ev.key, false)`; the key handed
over is the event's key string as it came, and this holds in every state of
the wrapper, whatever the value of `loaded`. -/
theorem key_events_forwarded {M : Type} (P : WasmPlatform M) (w : World M) (key : String) :
    callsSince w (step P (Event.keydown key) w)
        = [Call.keypress (JsValue.string key) true
            (P.keypress w.machine (JsValue.string key) true).1]
      ∧ callsSince w (step P (Event.keyup key) w)
        = [Call.keypress (JsValue.string key) false
            (P.keypress w.machine (JsValue.string key) false).1]
      ∧ (step P (Event.keydown key) w).loaded = w.loaded
      ∧ (step P (Event.keyup key) w).loaded = w.loaded :=
  ⟨callsSince_append w _ _ (onKeydown_trace P key w),
   callsSince_append w _ _ (onKeyup_trace P key w), rfl, rfl⟩

/-- C6: when the `load_rom` call of `onReaderLoad` throws, `loaded` keeps the
value it had; and if that value was false, then in every continuation of the
execution no `tick` and no `pixel_at` call is made for as long as no later
`load_rom` call has returned. -/
theorem failed_load_keeps_loaded {M : Type} (P : WasmPlatform M) (buf : ArrayBuffer)
    (w : World M)
    (hfail : (P.load_rom w.machine (Uint8Array.ofBuffer buf).elements).1 = Outcome.threw) :
    (onReaderLoad P buf w).loaded = w.loaded
      ∧ (w.loaded = false → ∀ es : List Event,
          (∀ c ∈ callsSince (onReaderLoad P buf w) (run P es (onReaderLoad P buf w)),
            c.isLoadReturned = false) →
          (run P es (onReaderLoad P buf w)).loaded = false
            ∧ ∀ c ∈ callsSince (onReaderLoad P buf w) (run P es (onReaderLoad P buf w)),
                c.isTick = false ∧ c.isPixelAt = false) := by
  rw [ofBuffer_elements] at hfail
  have hl : (onReaderLoad P buf w).loaded = w.loaded := by
    rw [onReaderLoad_loaded, hfail]
    simp
  refine ⟨hl, ?_⟩
  intro hw es hno
  exact run_quiet P es _ (by rw [hl, hw]) hno

theorem failed_load_keeps_loaded_witness :
    (refPlatform.load_rom freshWorld.machine (Uint8Array.ofBuffer oversizedRom).elements).1
        = Outcome.threw
      ∧ (onReaderLoad refPlatform oversizedRom freshWorld).loaded = freshWorld.loaded :=
  ⟨oversized_rejected _,
   (failed_load_keeps_loaded refPlatform oversizedRom freshWorld (oversized_rejected _)).1⟩

/-- C7: a frame makes no `tick`, `load_rom` or `keypress` call (its only calls
on the machine are `pixel_at` queries), it leaves the `loaded` flag as it was,
and when `pixel_at` does not change the machine state the machine state after
the frame is the state before it. -/
theorem animFrame_read_only {M : Type} (P : WasmPlatform M) (w : World M) :
    (∀ c ∈ callsSince w (animFrame P w),
        c.isTick = false ∧ c.isLoadRom = false ∧ c.isKeypress = false)
      ∧ (animFrame P w).loaded = w.loaded
      ∧ ((∀ m x y, (P.pixel_at m x y).2 = m) → (animFrame P w).machine = w.machine) := by
  refine ⟨animFrame_machine_calls P w, (animFrame_fields P w).1, ?_⟩
  · intro hpure
    rw [(animFrame_fields P w).2.1, machineAfter_pure P hpure]
    simp

theorem animFrame_read_only_witness :
    (∀ m x y, (refPlatform.pixel_at m x y).2 = m)
      ∧ (animFrame refPlatform loadedWorld).machine = loadedWorld.machine :=
  ⟨fun _ _ _ => rfl, (animFrame_read_only refPlatform loadedWorld).2.2 (fun _ _ _ => rfl)⟩

/-- C8: in every state reached from the start of the wrapper (where `loaded`
is false) by any sequence of events, every `tick` call and every `pixel_at`
call of the trace is preceded by a `load_rom` call that returned; and no event
takes `loaded` from true back to false. -/
theorem no_machine_use_before_load {M : Type} (P : WasmPlatform M) (width height : ℚ)
    (es : List Event) :
    (boot P width height).loaded = false
      ∧ (∀ pre c post, (run P es (boot P width height)).trace = pre ++ c :: post →
          (c.isTick = true ∨ c.isPixelAt = true) → ∃ l ∈ pre, l.isLoadReturned = true)
      ∧ (∀ (e : Event) (w : World M), w.loaded = true → (step P e w).loaded = true)
      ∧ (∀ e : Event, (run P es (boot P width height)).loaded = true →
          (run P (es ++ [e]) (boot P width height)).loaded = true) := by
  refine ⟨rfl, ?_, fun e w h => step_loaded_mono P e w h, ?_⟩
  · apply run_guarded P es (boot P width height)
    · have hb : (boot P width height).trace
          = [] ++ [Call.requestAnimationFrame, Call.setInterval (1000 / clocksPerSec)] := rfl
      rw [hb]
      apply guarded_append_quiet
      · intro pre c post h
        simp at h
      · intro c hc
        simp at hc
        rcases hc with h | h <;> rw [h] <;> exact ⟨rfl, rfl⟩
    · intro h
      cases h
  · intro e h
    have : run P (es ++ [e]) (boot P width height)
        = step P e (run P es (boot P width height)) := by
      simp [run, List.foldl_append]
    rw [this]
    exact step_loaded_mono P e _ h

theorem no_machine_use_before_load_witness :
    (run refPlatform [Event.change [sampleFile], Event.readerLoad 0] (boot refPlatform 300 150)).loaded
        = true
      ∧ (run refPlatform ([Event.change [sampleFile], Event.readerLoad 0] ++ [Event.clockFiring])
          (boot refPlatform 300 150)).loaded = true :=
  ⟨rfl, (no_machine_use_before_load refPlatform 300 150
    [Event.change [sampleFile], Event.readerLoad 0]).2.2.2 Event.clockFiring rfl⟩


/-- C9: `onInit` sets the canvas to 1280 x 640; with that size a cell is
1280 / 64 = 20 wide and 640 / 32 = 20 high, a loaded frame fills, for the
cells in row-major order, the rectangle with origin `(20 x, 20 y)` and size
20 x 20, and these 2048 rectangles are pairwise disjoint and cover exactly the
points of the canvas. -/
theorem animFrame_tiles_canvas {M : Type} (P : WasmPlatform M) (w : World M)
    (hw : w.canvasWidth = 1280) (hh : w.canvasHeight = 640) (hl : w.loaded = true) :
    (∀ v : World M, (onInit v).canvasWidth = 1280 ∧ (onInit v).canvasHeight = 640)
      ∧ w.canvasWidth / (chip8Width : ℚ) = 20 ∧ w.canvasHeight / (chip8Height : ℚ) = 20
      ∧ fillRects (callsSince w (animFrame P w))
          = rowMajor.map (fun c => { x := 20 * (c.1 : ℚ), y := 20 * (c.2 : ℚ), w := 20, h := 20 })
      ∧ (fillRects (callsSince w (animFrame P w))).length = 2048
      ∧ (fillRects (callsSince w (animFrame P w))).Pairwise
          (fun r s => ∀ p q : ℚ, ¬ (r.covers p q ∧ s.covers p q))
      ∧ (∀ p q : ℚ, (0 ≤ p ∧ p < 1280 ∧ 0 ≤ q ∧ q < 640)
          ↔ ∃ r ∈ fillRects (callsSince w (animFrame P w)), r.covers p q) := by
  have e1 : w.canvasWidth / (chip8Width : ℚ) = 20 := by rw [hw]; norm_num [chip8Width]
  have e2 : w.canvasHeight / (chip8Height : ℚ) = 20 := by rw [hh]; norm_num [chip8Height]
  have hr : fillRects (callsSince w (animFrame P w))
      = rowMajor.map (fun c => { x := 20 * (c.1 : ℚ), y := 20 * (c.2 : ℚ), w := 20, h := 20 }) := by
    rw [animFrame_fillRects P w hl, e1, e2]
    apply List.map_congr_left
    intro c _
    rw [mul_comm (c.1 : ℚ) 20, mul_comm (c.2 : ℚ) 20]
  refine ⟨fun v => ⟨rfl, rfl⟩, e1, e2, hr, ?_, ?_, ?_⟩
  · rw [hr, List.length_map, rowMajor_length]
  · rw [hr, List.pairwise_map]
    exact rowMajor_nodup.imp (fun {a b} hab p q => tiles_disjoint a b hab p q)
  · intro p q
    rw [hr]
    constructor
    · rintro ⟨h1, h2, h3, h4⟩
      obtain ⟨c, hc, hcov⟩ := tiles_cover p q h1 h2 h3 h4
      exact ⟨_, List.mem_map.mpr ⟨c, hc, rfl⟩, hcov⟩
    · rintro ⟨r, hr', hcov⟩
      obtain ⟨c, hc, rfl⟩ := List.mem_map.mp hr'
      exact tile_inside c hc p q hcov

theorem animFrame_tiles_canvas_witness :
    loadedWorld.canvasWidth = 1280 ∧ loadedWorld.canvasHeight = 640 ∧ loadedWorld.loaded = true
      ∧ (fillRects (callsSince loadedWorld (animFrame refPlatform loadedWorld))).length = 2048 :=
  ⟨rfl, rfl, rfl, (animFrame_tiles_canvas refPlatform loadedWorld rfl rfl rfl).2.2.2.2.1⟩

/-- C10: in a loaded frame every cell is painted right after its own query,
with `"#ffffff"` when that query returned true and `"#000000"` when it returned
false; no fill and no style assignment of the frame uses any other colour, and
the colour of a cell is a function of the answer for that cell alone. -/
theorem animFrame_cell_colours {M : Type} (P : WasmPlatform M) (w : World M)
    (hl : w.loaded = true) :
    callsSince w (animFrame P w)
        = Call.clearRect 0 0 w.canvasWidth w.canvasHeight
            :: (List.zip rowMajor (answers P w.machine rowMajor)).flatMap (fun cb =>
                [Call.pixel_at (cb.1.1 : Int) (cb.1.2 : Int) cb.2,
                 Call.setFillStyle (if cb.2 then "#ffffff" else "#000000"),
                 Call.fillRect ((cb.1.1 : ℚ) * (w.canvasWidth / 64))
                   ((cb.1.2 : ℚ) * (w.canvasHeight / 32)) (w.canvasWidth / 64)
                   (w.canvasHeight / 32) (if cb.2 then "#ffffff" else "#000000")])
            ++ [Call.requestAnimationFrame]
      ∧ (answers P w.machine rowMajor).length = rowMajor.length
      ∧ (∀ x y rw rh style, Call.fillRect x y rw rh style ∈ callsSince w (animFrame P w) →
          style = "#ffffff" ∨ style = "#000000")
      ∧ (∀ colour, Call.setFillStyle colour ∈ callsSince w (animFrame P w) →
          colour = "#ffffff" ∨ colour = "#000000") := by
  have e1 : ((chip8Width : Nat) : ℚ) = 64 := by norm_num [chip8Width]
  have e2 : ((chip8Height : Nat) : ℚ) = 32 := by norm_num [chip8Height]
  refine ⟨?_, answers_length P rowMajor w.machine, ?_, ?_⟩
  · rw [animFrame_callsSince, if_pos hl, e1, e2]
    rfl
  · intro x y rw rh style h
    rcases mem_animFrame_calls P w _ h with h | h | ⟨_, cell, b, h⟩
    · cases h
    · cases h
    · rcases mem_cellCalls _ _ _ _ _ h with h | h | h
      · cases h
      · cases h
      · injection h with _ _ _ _ hs
        rw [hs]
        exact two_colours b
  · intro colour h
    rcases mem_animFrame_calls P w _ h with h | h | ⟨_, cell, b, h⟩
    · cases h
    · cases h
    · rcases mem_cellCalls _ _ _ _ _ h with h | h | h
      · cases h
      · injection h with hs
        rw [hs]
        exact two_colours b
      · cases h

theorem animFrame_cell_colours_witness :
    loadedWorld.loaded = true
      ∧ ∀ colour, Call.setFillStyle colour ∈ callsSince loadedWorld (animFrame refPlatform loadedWorld) →
          colour = "#ffffff" ∨ colour = "#000000" :=
  ⟨rfl, (animFrame_cell_colours refPlatform loadedWorld rfl).2.2.2⟩

end Chip8Web
